import Mathlib

/-!
Verification of the model-registry / cache subsystem of the Gextia VS Code
extension (source files: src/cache/modelsCache.ts, src/parser/modelParser.ts).

The TypeScript code is shallowly embedded: JavaScript `Map`s (which preserve
key insertion order) become association lists with insertion-order update
semantics, filesystem/parsing results become explicit environment data, and
the registry-mutating methods become pure state transformers.
-/

set_option maxRecDepth 4000

/-! ## Data model (src/types.ts: GextiaModel, GextiaField, GextiaMethod) -/

/-- Values of parsed field arguments, per `ModelParser.parseArgumentValue`:
JavaScript returns string | boolean | number; integers and floats are kept
apart here because the source applies the two distinct coercions parseInt
and parseFloat (a float is kept as its literal text). -/
inductive FieldValue where
  | str (s : String)
  | boolean (b : Bool)
  | int (n : Nat)
  | float (s : String)
deriving DecidableEq, Repr

/-- One `name=value` (or conventional positional) field argument. -/
structure FieldProperty where
  name : String
  value : FieldValue
deriving DecidableEq, Repr

/-- A parsed field declaration (`name = fields.Kind(args)`). -/
structure GextiaField where
  name : String
  type : String
  properties : List FieldProperty
  lineNumber : Nat
  docString : Option String
deriving DecidableEq, Repr

/-- A parsed method declaration (`def name(params):`). -/
structure GextiaMethod where
  name : String
  parameters : List String
  decorators : List String
  lineNumber : Nat
  docString : Option String
deriving DecidableEq, Repr

/-- The `modelType` tag of a descriptor. -/
inductive ModelType where
  | model
  | abstract_model
  | component
deriving DecidableEq, Repr

/-- A model/component descriptor, the unit of registry storage. -/
structure GextiaModel where
  name : String
  className : String
  filePath : String
  moduleName : String
  isInherit : Bool
  inheritFrom : Option String
  fields : List GextiaField
  methods : List GextiaMethod
  dependencies : List String
  lineNumber : Nat
  modelType : ModelType
deriving DecidableEq, Repr

/-! ## Insertion-ordered maps (JavaScript `Map` semantics)

`Map.set` overwrites the value of an existing key in place and appends a
fresh key at the end; iteration follows key insertion order. -/

/-- A JavaScript `Map<string, A>` as an insertion-ordered association list. -/
abbrev JMap (α : Type) := List (String × α)

/-- `Map.get`: value of the first (unique, in reachable states) entry. -/
def mapGet {α : Type} : JMap α → String → Option α
  | [], _ => none
  | (k, v) :: t, key => if k = key then some v else mapGet t key

/-- `Map.set`: update the entry in place if the key exists, else append. -/
def mapSet {α : Type} : JMap α → String → α → JMap α
  | [], key, v => [(key, v)]
  | (k, w) :: t, key, v => if k = key then (key, v) :: t else (k, w) :: mapSet t key v

/-- `Map.get(key) || []`, the bucket of a key. -/
def mapGetD (c : JMap (List GextiaModel)) (key : String) : List GextiaModel :=
  (mapGet c key).getD []

/-- The model map `ModelName -> GextiaModel[]`. -/
abbrev CMap := JMap (List GextiaModel)

/-- `if (!m.has(k)) m.set(k, []); m.get(k)!.push(...ms)` — append a list of
descriptors to a key's bucket, creating the bucket if absent. -/
def pushBucket (c : CMap) (key : String) (ms : List GextiaModel) : CMap :=
  mapSet c key (mapGetD c key ++ ms)

/-- Push a single descriptor under its `name` key. -/
def pushModel (c : CMap) (m : GextiaModel) : CMap :=
  pushBucket c m.name [m]

theorem mapGet_mapSet_self {α : Type} (c : JMap α) (k : String) (v : α) :
    mapGet (mapSet c k v) k = some v := by
  induction c with
  | nil => simp [mapGet, mapSet]
  | cons e t ih =>
      obtain ⟨k', w⟩ := e
      by_cases h : k' = k <;> simp [mapGet, mapSet, h, ih]

theorem mapGet_mapSet_ne {α : Type} (c : JMap α) (k k' : String) (v : α)
    (h : k' ≠ k) : mapGet (mapSet c k v) k' = mapGet c k' := by
  induction c with
  | nil => simp [mapGet, mapSet, Ne.symm h]
  | cons e t ih =>
      obtain ⟨k0, w⟩ := e
      by_cases h0 : k0 = k
      · subst h0
        simp [mapGet, mapSet, Ne.symm h]
      · simp only [mapSet, if_neg h0]
        by_cases h1 : k0 = k' <;> simp [mapGet, h1, ih]

theorem mem_mapSet_elim {α : Type} {c : JMap α} {k : String} {v : α}
    {e : String × α} (h : e ∈ mapSet c k v) : e = (k, v) ∨ e ∈ c := by
  induction c with
  | nil => simpa [mapSet] using h
  | cons e0 t ih =>
      obtain ⟨k0, w⟩ := e0
      by_cases h0 : k0 = k
      · simp [mapSet, h0] at h
        rcases h with h | h
        · exact Or.inl (by simp [h])
        · exact Or.inr (by simp [h])
      · simp [mapSet, h0] at h
        rcases h with h | h
        · exact Or.inr (by simp [h])
        · rcases ih h with h' | h'
          · exact Or.inl h'
          · exact Or.inr (by simp [h'])

theorem mapGet_eq_some_mem {α : Type} {c : JMap α} {k : String} {v : α}
    (h : mapGet c k = some v) : (k, v) ∈ c := by
  induction c with
  | nil => simp [mapGet] at h
  | cons e t ih =>
      obtain ⟨k0, w⟩ := e
      by_cases h0 : k0 = k
      · subst h0
        simp [mapGet] at h
        simp [h]
      · simp [mapGet, h0] at h
        exact List.mem_cons_of_mem _ (ih h)

/-- Keys of the map. -/
def mapKeys {α : Type} (c : JMap α) : List String := c.map Prod.fst

theorem mapKeys_cons {α : Type} (k : String) (v : α) (t : JMap α) :
    mapKeys ((k, v) :: t) = k :: mapKeys t := rfl

theorem mapGet_eq_none_of_not_mem {α : Type} {c : JMap α} {k : String}
    (h : k ∉ mapKeys c) : mapGet c k = none := by
  induction c with
  | nil => simp [mapGet]
  | cons e t ih =>
      obtain ⟨k0, w⟩ := e
      rw [mapKeys_cons, List.mem_cons] at h
      push_neg at h
      simp [mapGet, Ne.symm h.1, ih h.2]

theorem mapKeys_mapSet {α : Type} (c : JMap α) (k : String) (v : α) :
    mapKeys (mapSet c k v) = if k ∈ mapKeys c then mapKeys c else mapKeys c ++ [k] := by
  induction c with
  | nil => simp [mapKeys, mapSet]
  | cons e t ih =>
      obtain ⟨k0, w⟩ := e
      by_cases h0 : k0 = k
      · subst h0
        simp [mapSet, mapKeys_cons]
      · have hset : mapSet ((k0, w) :: t) k v = (k0, w) :: mapSet t k v := by
          simp [mapSet, h0]
        rw [hset, mapKeys_cons, mapKeys_cons, ih]
        by_cases h1 : k ∈ mapKeys t
        · simp [List.mem_cons, h1]
        · have h2 : k ≠ k0 := fun hh => h0 (hh ▸ rfl)
          simp [List.mem_cons, h1, h2]

theorem nodup_mapKeys_mapSet {α : Type} {c : JMap α} (k : String) (v : α)
    (h : (mapKeys c).Nodup) : (mapKeys (mapSet c k v)).Nodup := by
  rw [mapKeys_mapSet]
  by_cases h1 : k ∈ mapKeys c
  · simpa [h1]
  · simpa [h1, List.nodup_append] using h

/-! ## getModels (part_004 modelsCache, lines 326-343)

`getGextiaCorePath()` (ProjectManager) returns null when no core root is
configured, else `path.join(gextiaPath, 'gextia')` (never the empty string).
The JavaScript guard `if (corePath)` is falsy for null and for "". -/

/-- `corePath && m.filePath && m.filePath.startsWith(corePath)` for one
descriptor: the JavaScript truthiness test on `m.filePath` excludes the
empty string. -/
def coreFilter (cp : String) (ms : List GextiaModel) : List GextiaModel :=
  ms.filter (fun m => !(m.filePath = "") && List.isPrefixOf cp.toList m.filePath.toList)

/-- The `for ([name, models] of this.cache.entries())` loop of `getModels`:
at the first entry whose key matches, return the core-filtered bucket if it
is non-empty, otherwise keep scanning; `none` means the loop fell through. -/
def getModelsLoop (cp modelName : String) : CMap → Option (List GextiaModel)
  | [] => none
  | (n, ms) :: t =>
      if n = modelName then
        let coreModels := coreFilter cp ms
        if coreModels.length > 0 then some coreModels else getModelsLoop cp modelName t
      else getModelsLoop cp modelName t

/-- `ModelsCache.getModels`: prefer descriptors contributed by the Gextia
core root; fall back to `this.cache.get(modelName) || []`. -/
def getModels (corePath : Option String) (c : CMap) (modelName : String) :
    List GextiaModel :=
  let fallback := (mapGet c modelName).getD []
  match corePath with
  | some cp =>
      if cp = "" then fallback
      else
        match getModelsLoop cp modelName c with
        | some r => r
        | none => fallback
  | none => fallback

theorem getModelsLoop_of_not_mem {cp modelName : String} {c : CMap}
    (h : modelName ∉ mapKeys c) : getModelsLoop cp modelName c = none := by
  induction c with
  | nil => rfl
  | cons e t ih =>
      obtain ⟨n, ms⟩ := e
      rw [mapKeys_cons, List.mem_cons] at h
      push_neg at h
      simp [getModelsLoop, Ne.symm h.1, ih h.2]

theorem getModelsLoop_eq {cp modelName : String} {c : CMap}
    (hnd : (mapKeys c).Nodup) :
    getModelsLoop cp modelName c =
      match mapGet c modelName with
      | some ms => if (coreFilter cp ms).length > 0 then some (coreFilter cp ms) else none
      | none => none := by
  induction c with
  | nil => rfl
  | cons e t ih =>
      obtain ⟨n, ms⟩ := e
      rw [mapKeys_cons] at hnd
      rcases List.nodup_cons.mp hnd with ⟨hn, hnd'⟩
      by_cases h : n = modelName
      · subst h
        by_cases hl : (coreFilter cp ms).length > 0
        · simp [getModelsLoop, mapGet, hl]
        · simp [getModelsLoop, mapGet, hl, getModelsLoop_of_not_mem hn]
      · simp [getModelsLoop, mapGet, h, ih hnd']

/-- C4: for every model name, if a preferred core root is configured (a
non-null, hence non-empty, core path) and at least one cached descriptor for
that name has a file path under that root, getModels returns exactly the
descriptors for that name whose file path is under the core root; otherwise
it returns the full bucket in insertion order (empty when the name is
unknown). Stated over caches with unique keys, the only reachable shape. -/
theorem getModels_core_precedence (cp : String) (c : CMap) (modelName : String)
    (hnd : (mapKeys c).Nodup) (hcp : cp ≠ "") :
    (getModels (some cp) c modelName =
      if (coreFilter cp ((mapGet c modelName).getD [])).length > 0
      then coreFilter cp ((mapGet c modelName).getD [])
      else (mapGet c modelName).getD [])
    ∧ getModels none c modelName = (mapGet c modelName).getD [] := by
  constructor
  · rw [getModels, getModelsLoop_eq hnd]
    cases hg : mapGet c modelName with
    | none => simp [hcp, hg, coreFilter]
    | some ms =>
        by_cases hl : (coreFilter cp ms).length > 0 <;> simp [hcp, hg, hl]
  · rfl

/-- Witness for C4 at a concrete cache: the name res.partner has one core
and one non-core descriptor; the core one is selected. -/
def sampleModel (nm fp : String) : GextiaModel :=
  { name := nm, className := "C", filePath := fp, moduleName := "m",
    isInherit := false, inheritFrom := none, fields := [], methods := [],
    dependencies := [], lineNumber := 1, modelType := ModelType.model }

theorem getModels_core_precedence_witness :
    (getModels (some "/opt/gextia/gextia") [("res.partner",
        [sampleModel "res.partner" "/opt/gextia/gextia/base.py",
         sampleModel "res.partner" "/home/addons/x.py"])] "res.partner" =
      if (coreFilter "/opt/gextia/gextia" ((mapGet [("res.partner",
        [sampleModel "res.partner" "/opt/gextia/gextia/base.py",
         sampleModel "res.partner" "/home/addons/x.py"])] "res.partner").getD [])).length > 0
      then coreFilter "/opt/gextia/gextia" ((mapGet [("res.partner",
        [sampleModel "res.partner" "/opt/gextia/gextia/base.py",
         sampleModel "res.partner" "/home/addons/x.py"])] "res.partner").getD [])
      else (mapGet [("res.partner",
        [sampleModel "res.partner" "/opt/gextia/gextia/base.py",
         sampleModel "res.partner" "/home/addons/x.py"])] "res.partner").getD [])
    ∧ getModels none [("res.partner",
        [sampleModel "res.partner" "/opt/gextia/gextia/base.py",
         sampleModel "res.partner" "/home/addons/x.py"])] "res.partner" =
      (mapGet [("res.partner",
        [sampleModel "res.partner" "/opt/gextia/gextia/base.py",
         sampleModel "res.partner" "/home/addons/x.py"])] "res.partner").getD [] :=
  getModels_core_precedence "/opt/gextia/gextia" _ "res.partner" (by decide) (by decide)

/-! ## Registry state (ModelsCache fields) and updateFileInCache
(part_004 modelsCache, lines 8-14, 174-237, 286-296) -/

/-- The mutable fields of the `ModelsCache` singleton. -/
structure ModelsCacheState where
  cache : CMap
  componentsCache : CMap
  fileModificationTimes : JMap Nat
  isInitialized : Bool
  isRefreshing : Bool
deriving DecidableEq, Repr

/-- The state of a freshly constructed cache. -/
def freshCacheState : ModelsCacheState :=
  { cache := [], componentsCache := [], fileModificationTimes := [],
    isInitialized := false, isRefreshing := false }

/-- `removeModelsFromFile`: drop from every bucket the descriptors whose
`filePath` equals the given path, deleting buckets that become empty
(`this.cache.delete(modelName)` / `this.cache.set(modelName, filtered)`). -/
def removeModelsFromFile (filePath : String) : CMap → CMap
  | [] => []
  | (n, ms) :: t =>
      let filteredModels := ms.filter (fun m => !(m.filePath = filePath))
      if filteredModels.isEmpty then removeModelsFromFile filePath t
      else (n, filteredModels) :: removeModelsFromFile filePath t

/-- The environment a single `updateFileInCache(filePath)` call observes:
the file's stat mtime (`none` = the stat call throws), the resolved owning
module name (`getModuleNameFromFilePath`), and the parse result of the file
(`none` = `parseModelsInFile` throws). Both stat calls inside the method
observe the same value. -/
structure UpdEnv where
  path : String
  statMtime : Option Nat
  moduleName : Option String
  parsed : Option (List GextiaModel)
deriving DecidableEq, Repr

/-- `isFileModified`: `!cachedTime || currentTime > cachedTime`; a recorded
time of 0 is falsy in JavaScript and counts as "no record". A failing stat
conservatively reports modified. -/
def isFileModified (e : UpdEnv) (fmt : JMap Nat) : Bool :=
  match e.statMtime with
  | none => true
  | some t =>
      match mapGet fmt e.path with
      | none => true
      | some cached => cached == 0 || t > cached

/-- `parseModelsInFile` stamps every returned descriptor with the path it
was given; the environment's raw descriptor list gets the same stamping. -/
def stampPath (path : String) (ms : List GextiaModel) : List GextiaModel :=
  ms.map (fun m => { m with filePath := path })

/-- `ModelsCache.updateFileInCache` as a state transformer. The catch block
around the body means a parse failure still keeps the preceding removal, and
a failing final stat keeps the preceding insertions without recording a
modification time. -/
def updateFileInCache (e : UpdEnv) (s : ModelsCacheState) : ModelsCacheState :=
  if !s.isInitialized || s.isRefreshing then s
  else if !(isFileModified e s.fileModificationTimes) then s
  else
    match e.moduleName with
    | none => s
    | some _ =>
        let c1 := removeModelsFromFile e.path s.cache
        match e.parsed with
        | none => { s with cache := c1 }
        | some ms =>
            let c2 := (stampPath e.path ms).foldl pushModel c1
            match e.statMtime with
            | none => { s with cache := c2 }
            | some t =>
                { s with cache := c2,
                         fileModificationTimes := mapSet s.fileModificationTimes e.path t }

theorem filter_filter_self {α : Type} (p : α → Bool) (l : List α) :
    (l.filter p).filter p = l.filter p := by
  induction l with
  | nil => rfl
  | cons a t ih =>
      by_cases h : p a = true <;> simp [List.filter, h, ih]

theorem remove_idem (p : String) (c : CMap) :
    removeModelsFromFile p (removeModelsFromFile p c) = removeModelsFromFile p c := by
  induction c with
  | nil => rfl
  | cons e t ih =>
      obtain ⟨n, ms⟩ := e
      by_cases h : (ms.filter (fun m => !(m.filePath = p))).isEmpty = true
      · rw [removeModelsFromFile, if_pos h]
        exact ih
      · rw [removeModelsFromFile, if_neg h, removeModelsFromFile]
        rw [show ((ms.filter (fun m => !(m.filePath = p))).filter
              (fun m => !(m.filePath = p))) = ms.filter (fun m => !(m.filePath = p)) from
            filter_filter_self _ _]
        rw [if_neg h]
        exact congrArg _ ih

theorem mapSet_idem {α : Type} (m : JMap α) (k : String) (v : α) :
    mapSet (mapSet m k v) k v = mapSet m k v := by
  induction m with
  | nil => simp [mapSet]
  | cons e t ih =>
      obtain ⟨k0, w⟩ := e
      by_cases h : k0 = k <;> simp [mapSet, h, ih]

theorem stampPath_all (p : String) (ms : List GextiaModel) :
    ∀ m ∈ stampPath p ms, m.filePath = p := by
  intro m hm
  simp [stampPath] at hm
  obtain ⟨x, _, rfl⟩ := hm
  rfl

theorem remove_pushModel (p : String) (c : CMap) (m : GextiaModel)
    (hm : m.filePath = p) :
    removeModelsFromFile p (pushModel c m) = removeModelsFromFile p c := by
  induction c with
  | nil =>
      simp [pushModel, pushBucket, mapGetD, mapGet, mapSet, removeModelsFromFile, hm]
  | cons e t ih =>
      obtain ⟨k0, w⟩ := e
      by_cases h0 : k0 = m.name
      · subst h0
        have hpush : pushModel ((m.name, w) :: t) m = (m.name, w ++ [m]) :: t := by
          simp [pushModel, pushBucket, mapGetD, mapGet, mapSet]
        rw [hpush]
        have hfilter : (w ++ [m]).filter (fun x => !(x.filePath = p)) =
            w.filter (fun x => !(x.filePath = p)) := by
          simp [List.filter_append, hm]
        simp only [removeModelsFromFile]
        rw [hfilter]
      · have hpush : pushModel ((k0, w) :: t) m = (k0, w) :: pushModel t m := by
          simp [pushModel, pushBucket, mapGetD, mapGet, mapSet, h0]
        rw [hpush]
        simp only [removeModelsFromFile]
        rw [ih]

theorem remove_foldl_push (p : String) (ms : List GextiaModel) (c : CMap)
    (h : ∀ m ∈ ms, m.filePath = p) :
    removeModelsFromFile p (ms.foldl pushModel c) = removeModelsFromFile p c := by
  induction ms generalizing c with
  | nil => rfl
  | cons m t ih =>
      rw [List.foldl_cons, ih _ (fun x hx => h x (List.mem_cons_of_mem _ hx)),
        remove_pushModel p c m (h m (List.mem_cons_self _ _))]

/-- C3: calling updateFile(F) twice with no change to F's modification time
between the two calls leaves the registry's maps after the second call
identical to their state after the first call — no duplicate descriptors are
appended. The environment (file content, stat result, module resolution) is
fixed between the calls, so this is idempotence of the update transformer;
it holds on every state, including the early-return paths and the JavaScript
falsy-zero modification-time path, where the file is reparsed but removal
followed by reinsertion reproduces the same maps. -/
theorem updateFileInCache_idempotent (e : UpdEnv) (s : ModelsCacheState) :
    updateFileInCache e (updateFileInCache e s) = updateFileInCache e s := by
  cases hg : (!s.isInitialized || s.isRefreshing) with
  | true => simp [updateFileInCache, hg]
  | false =>
  cases hmod : isFileModified e s.fileModificationTimes with
  | false => simp [updateFileInCache, hg, hmod]
  | true =>
  cases hmn : e.moduleName with
  | none => simp [updateFileInCache, hg, hmod, hmn]
  | some mn =>
  cases hp : e.parsed with
  | none =>
      have h1 : updateFileInCache e s =
          { s with cache := removeModelsFromFile e.path s.cache } := by
        simp [updateFileInCache, hg, hmod, hmn, hp]
      rw [h1]
      simp [updateFileInCache, hg, hmod, hmn, hp, remove_idem]
  | some ms =>
      have hrm : ∀ c0 : CMap,
          removeModelsFromFile e.path
            ((stampPath e.path ms).foldl pushModel (removeModelsFromFile e.path c0)) =
          removeModelsFromFile e.path c0 := by
        intro c0
        rw [remove_foldl_push _ _ _ (stampPath_all _ _), remove_idem]
      cases hst : e.statMtime with
      | none =>
          have h1 : updateFileInCache e s =
              { s with cache := List.foldl pushModel (removeModelsFromFile e.path s.cache) (stampPath e.path ms) } := by
            simp [updateFileInCache, hg, hmod, hmn, hp, hst]
          rw [h1]
          have hmod2 : isFileModified e s.fileModificationTimes = true := by
            simp [isFileModified, hst]
          simp [updateFileInCache, hg, hmod2, hmn, hp, hst, hrm]
      | some t0 =>
          have h1 : updateFileInCache e s =
              { s with cache := List.foldl pushModel (removeModelsFromFile e.path s.cache) (stampPath e.path ms), fileModificationTimes := mapSet s.fileModificationTimes e.path t0 } := by
            simp [updateFileInCache, hg, hmod, hmn, hp, hst]
          rw [h1]
          have hmod2 : isFileModified e
              (mapSet s.fileModificationTimes e.path t0) = (t0 == 0) := by
            simp [isFileModified, hst, mapGet_mapSet_self, Nat.lt_irrefl]
          cases h0 : (t0 == 0) with
          | false =>
              have hmodf : isFileModified e
                  (mapSet s.fileModificationTimes e.path t0) = false := by
                rw [hmod2, h0]
              simp [updateFileInCache, hg, hmodf]
          | true =>
              simp [updateFileInCache, hg, hmod2, h0, hmn, hp, hst, hrm, mapSet_idem]

/-! ## Full refresh (part_004 modelsCache, lines 31-127) and the parse
pipeline it drives (modelParser parseModelsInPath).

A scanned source file is its path, its stat mtime, and the descriptor list
`parseModelsInFile` yields for it (stamped with the file's path, as the
parser stamps every descriptor with the path it was handed). A root either
exists and scans to a file list, does not exist on disk (skipped with a
warning), or raises an unexpected exception during root iteration that
escapes to the outer catch. The per-root ModelParser try/catch swallows its
own errors and returns a partial map, so the ok case covers it. The
modification-time scan visits the same files as the parse. -/

structure PFile where
  path : String
  mtime : Nat
  models : List GextiaModel
deriving DecidableEq, Repr

/-- The models a file contributes, stamped with its path. -/
def parseFileModels (f : PFile) : List GextiaModel := stampPath f.path f.models

/-- One entry of the root list `projectManager.getAllModelsPaths()`. -/
inductive RootItem where
  | ok (files : List PFile)
  | missing
  | crash
deriving DecidableEq, Repr

/-- `ModelParser.parseModelsInPath`: group every descriptor found under a
root by its `name`, in encounter order. -/
def parseModelsInPath (files : List PFile) : CMap :=
  (files.flatMap parseFileModels).foldl pushModel []

/-- One step of the refresh merge loop: a whole name bucket is routed to the
components partition exactly when its first descriptor is a component
(`models.length > 0 && models[0].modelType === 'component'`). -/
def mergeEntry : CMap × CMap → String × List GextiaModel → CMap × CMap
  | (c, cc), (n, ms) =>
      match ms with
      | m :: _ =>
          if m.modelType = ModelType.component then (c, pushBucket cc n ms)
          else (pushBucket c n ms, cc)
      | [] => (pushBucket c n [], cc)

/-- Merge one root's grouped parse results into the two partitions. -/
def mergeBuckets (c cc : CMap) (pm : CMap) : CMap × CMap :=
  pm.foldl mergeEntry (c, cc)

/-- Record the modification times of a root's files. -/
def recordMtimes (fmt : JMap Nat) (files : List PFile) : JMap Nat :=
  files.foldl (fun m f => mapSet m f.path f.mtime) fmt

/-- The `for (const modelPath of allPaths)` loop body of `refreshCache`.
Returns `(crashed, state)`; a crash stops the iteration with the state
reached so far. -/
def refreshLoop : List RootItem → ModelsCacheState → Bool × ModelsCacheState
  | [], s => (false, s)
  | RootItem.missing :: t, s => refreshLoop t s
  | RootItem.crash :: _, s => (true, s)
  | RootItem.ok files :: t, s =>
      let pm := parseModelsInPath files
      let (c, cc) := mergeBuckets s.cache s.componentsCache pm
      refreshLoop t { s with cache := c, componentsCache := cc,
                             fileModificationTimes := recordMtimes s.fileModificationTimes files }

/-- `ModelsCache.refreshCache`: early-return (flag untouched) if already
refreshing; else set the flag, clear all three maps, run the root loop, and
in a finally step clear the flag; an escaped error is rethrown after the
cleanup. Result: the thrown-or-returned outcome and the final state. -/
def refreshCacheRun (items : List RootItem) (s : ModelsCacheState) :
    Except Unit Unit × ModelsCacheState :=
  if s.isRefreshing then (Except.ok (), s)
  else
    let s0 := { s with isRefreshing := true, cache := [], componentsCache := [],
                       fileModificationTimes := [] }
    let r := refreshLoop items s0
    ((if r.1 then Except.error () else Except.ok ()), { r.2 with isRefreshing := false })

/-- The state after a `refreshCache` call. -/
def refreshCache (items : List RootItem) (s : ModelsCacheState) : ModelsCacheState :=
  (refreshCacheRun items s).2

/-- `ModelsCache.initialize` (called `initCache` here): no-op if initialized
or refreshing, or when no profile is active; otherwise it sets `isRefreshing`
itself, awaits `refreshCache`, marks initialized on success (its catch block
swallows a refresh error), and clears the flag in its finally step. -/
def initCache (items : List RootItem) (hasActiveProfile : Bool)
    (s : ModelsCacheState) : ModelsCacheState :=
  if s.isInitialized || s.isRefreshing then s
  else if !hasActiveProfile then s
  else
    let s1 := { s with isRefreshing := true }
    let r := refreshCacheRun items s1
    let s3 := match r.1 with
      | Except.ok _ => { r.2 with isInitialized := true }
      | Except.error _ => r.2
    { s3 with isRefreshing := false }

/-- `ModelsCache.getInheritingModels`: linear scan of every bucket of the
models map collecting descriptors with `isInherit` and a matching
`inheritFrom`. -/
def getInheritingModels (c : CMap) (modelName : String) : List GextiaModel :=
  c.foldl (fun acc e =>
    acc ++ e.2.filter (fun m => m.isInherit && m.inheritFrom == some modelName)) []

/-! ## C1, C2, C5: concrete evaluations of the mutating operations -/

/-- A component descriptor (as `parseComponentClass` builds them: no fields,
no inheritance, `modelType = component`). -/
def sampleComponent (nm fp : String) : GextiaModel :=
  { name := nm, className := "C", filePath := fp, moduleName := "m",
    isInherit := false, inheritFrom := none, fields := [], methods := [],
    dependencies := [], lineNumber := 1, modelType := ModelType.component }

/-- One existing root with one parsable file declaring one model. -/
def envC1 : List RootItem :=
  [RootItem.ok [{ path := "/r/mod/models/a.py", mtime := 1,
                  models := [sampleModel "a" ""] }]]

/-- C1 (code bug): on an uninitialized, non-refreshing registry with an
active profile, `initialize` sets `isRefreshing` before awaiting
`refreshCache`, whose reentrancy guard then sees the flag and returns
immediately — so the registry is marked initialized with empty maps, while a
direct full refresh of the same roots loads the descriptor. -/
theorem initCache_skips_refresh_bug :
    (initCache envC1 true freshCacheState).isInitialized = true
    ∧ (initCache envC1 true freshCacheState).cache = []
    ∧ (refreshCache envC1 freshCacheState).cache =
        [("a", [sampleModel "a" "/r/mod/models/a.py"])] := by decide

/-- The tree before the change: one file declaring one component. -/
def envC2a : List RootItem :=
  [RootItem.ok [{ path := "/r/m/models/c.py", mtime := 1,
                  models := [sampleComponent "x" ""] }]]

/-- The same tree after the file changed (new mtime, new line number). -/
def envC2b : List RootItem :=
  [RootItem.ok [{ path := "/r/m/models/c.py", mtime := 2,
                  models := [{ sampleComponent "x" "" with lineNumber := 5 }] }]]

/-- The registry after initialization over the original tree. -/
def stateC2 : ModelsCacheState :=
  { refreshCache envC2a freshCacheState with isInitialized := true }

/-- What `updateFileInCache("/r/m/models/c.py")` observes after the change. -/
def updC2 : UpdEnv :=
  { path := "/r/m/models/c.py", statMtime := some 2, moduleName := some "m",
    parsed := some [{ sampleComponent "x" "" with lineNumber := 5 }] }

/-- C2 (code bug): for a changed file declaring a component,
`updateFileInCache` appends the reparsed component descriptor to the models
map and leaves the stale descriptor in the components map, while a full
refresh over the same tree stores exactly the new descriptor in the
components map and nothing in the models map. -/
theorem updateFile_component_divergence_bug :
    (updateFileInCache updC2 stateC2).cache =
      [("x", [{ sampleComponent "x" "/r/m/models/c.py" with lineNumber := 5 }])]
    ∧ (refreshCache envC2b stateC2).cache = []
    ∧ (updateFileInCache updC2 stateC2).componentsCache =
        [("x", [sampleComponent "x" "/r/m/models/c.py"])]
    ∧ (refreshCache envC2b stateC2).componentsCache =
        [("x", [{ sampleComponent "x" "/r/m/models/c.py" with lineNumber := 5 }])] := by
  decide

/-- One root whose files declare a model named x and then a component also
named x: `parseModelsInPath` groups them into one bucket. -/
def envC5 : List RootItem :=
  [RootItem.ok
    [{ path := "/r/m1/models/a.py", mtime := 1, models := [sampleModel "x" ""] },
     { path := "/r/m1/models/b.py", mtime := 1, models := [sampleComponent "x" ""] }]]

/-- C5 (code bug): `refreshCache` routes a whole name bucket by the kind of
its first descriptor, so the component-tagged descriptor lands in the models
partition next to the model, the bucket mixes kinds, and the components
partition stays empty. -/
theorem refresh_component_partition_bug :
    (refreshCache envC5 freshCacheState).cache =
      [("x", [sampleModel "x" "/r/m1/models/a.py",
              sampleComponent "x" "/r/m1/models/b.py"])]
    ∧ (sampleComponent "x" "/r/m1/models/b.py").modelType = ModelType.component
    ∧ (refreshCache envC5 freshCacheState).componentsCache = [] := by decide

/-! ## C8: the refreshing flag and error propagation -/

/-- A registry already refreshing (e.g. the state `initialize` creates just
before it awaits `refreshCache`). -/
def busyState : ModelsCacheState := { freshCacheState with isRefreshing := true }

/-- C8 counterexample: a `refreshCache` call entered while the flag is
already set returns (without throwing) with the refreshing flag still true —
the guard path has no cleanup step, so "the flag is false at the moment the
call returns" fails for that execution. -/
theorem refreshCache_reentrant_flag_counterexample :
    (refreshCacheRun [] busyState).1 = Except.ok ()
    ∧ (refreshCacheRun [] busyState).2.isRefreshing = true :=
  ⟨rfl, rfl⟩

theorem refreshLoop_flag (items : List RootItem) (s : ModelsCacheState) :
    (refreshLoop items s).2.isRefreshing = s.isRefreshing := by
  induction items generalizing s with
  | nil => rfl
  | cons it t ih =>
      cases it with
      | ok files => simpa [refreshLoop] using ih _
      | missing => simpa [refreshLoop] using ih s
      | crash => rfl

theorem refreshLoop_crashed (items : List RootItem) (s : ModelsCacheState) :
    (refreshLoop items s).1 = true ↔ RootItem.crash ∈ items := by
  induction items generalizing s with
  | nil => simp [refreshLoop]
  | cons it t ih =>
      cases it with
      | ok files => simp [refreshLoop, ih]
      | missing => simp [refreshLoop, ih]
      | crash => simp [refreshLoop]

theorem refreshLoop_takeWhile (items : List RootItem) (s : ModelsCacheState) :
    (refreshLoop items s).2 =
      (refreshLoop (items.takeWhile (fun it => decide (¬ it = RootItem.crash))) s).2 := by
  induction items generalizing s with
  | nil => rfl
  | cons it t ih =>
      cases it with
      | ok files => simpa [refreshLoop, List.takeWhile] using ih _
      | missing => simpa [refreshLoop, List.takeWhile] using ih s
      | crash => simp [refreshLoop, List.takeWhile]

/-- C8 amended: whenever `refreshCache` is entered with the refreshing flag
clear, the flag is false at the moment the call returns or throws; the call
throws exactly when an unexpected exception occurs during root iteration
(after logging, via the rethrow in the catch block); and on a throw both
registry partitions equal the ones built from the roots processed before the
crash — everything merged before the error remains. A call entered while
already refreshing returns immediately leaving the flag set (it belongs to
the refresh in progress). -/
theorem refreshCache_cleanup_amended (items : List RootItem) (s : ModelsCacheState)
    (h : s.isRefreshing = false) :
    (refreshCacheRun items s).2.isRefreshing = false
    ∧ ((refreshCacheRun items s).1 = Except.error () ↔ RootItem.crash ∈ items)
    ∧ (refreshCacheRun items s).2.cache =
        (refreshCacheRun (items.takeWhile (fun it => decide (¬ it = RootItem.crash))) s).2.cache
    ∧ (refreshCacheRun items s).2.componentsCache =
        (refreshCacheRun (items.takeWhile (fun it => decide (¬ it = RootItem.crash))) s).2.componentsCache := by
  refine ⟨?_, ?_, ?_, ?_⟩
  · simp [refreshCacheRun, h]
  · simp only [refreshCacheRun, h, Bool.false_eq_true, if_false]
    rw [← refreshLoop_crashed items]
    cases hc : (refreshLoop items _).1 <;> simp [hc]
  · simp only [refreshCacheRun, h, Bool.false_eq_true, if_false]
    rw [refreshLoop_takeWhile]
  · simp only [refreshCacheRun, h, Bool.false_eq_true, if_false]
    rw [refreshLoop_takeWhile]

/-- Witness for C8 amended at a crashing root list. -/
theorem refreshCache_cleanup_amended_witness :
    (refreshCacheRun [RootItem.ok [], RootItem.crash] freshCacheState).2.isRefreshing = false
    ∧ ((refreshCacheRun [RootItem.ok [], RootItem.crash] freshCacheState).1 = Except.error ()
        ↔ RootItem.crash ∈ [RootItem.ok [], RootItem.crash])
    ∧ (refreshCacheRun [RootItem.ok [], RootItem.crash] freshCacheState).2.cache =
        (refreshCacheRun ([RootItem.ok [], RootItem.crash].takeWhile
          (fun it => decide (¬ it = RootItem.crash))) freshCacheState).2.cache
    ∧ (refreshCacheRun [RootItem.ok [], RootItem.crash] freshCacheState).2.componentsCache =
        (refreshCacheRun ([RootItem.ok [], RootItem.crash].takeWhile
          (fun it => decide (¬ it = RootItem.crash))) freshCacheState).2.componentsCache :=
  refreshCache_cleanup_amended [RootItem.ok [], RootItem.crash] freshCacheState rfl

/-! ## C6: merge completeness of getInheritingModels after a full refresh -/

/-- The predicate of `getInheritingModels`:
`model.isInherit && model.inheritFrom === modelName`. -/
def isExtOf (X : String) (m : GextiaModel) : Bool :=
  m.isInherit && m.inheritFrom == some X

theorem foldl_append_collect {α β : Type} (g : α → List β) (c : List α)
    (init : List β) :
    c.foldl (fun acc e => acc ++ g e) init = init ++ c.flatMap g := by
  induction c generalizing init with
  | nil => simp
  | cons e t ih => simp [ih]

theorem getInheritingModels_eq_flatMap (c : CMap) (X : String) :
    getInheritingModels c X = c.flatMap (fun e => e.2.filter (isExtOf X)) := by
  rw [getInheritingModels]
  rw [show (fun (acc : List GextiaModel) (e : String × List GextiaModel) =>
      acc ++ e.2.filter (fun m => m.isInherit && m.inheritFrom == some X)) =
      (fun acc e => acc ++ e.2.filter (isExtOf X)) from rfl]
  rw [foldl_append_collect]
  rfl

/-- All buckets with a key other than X are free of extensions of X. -/
def extFree (X : String) (c : CMap) : Prop :=
  ∀ e ∈ c, e.1 ≠ X → e.2.filter (isExtOf X) = []

theorem extFree_getD {X : String} {c : CMap} (hinv : extFree X c) {n : String}
    (hne : n ≠ X) : (mapGetD c n).filter (isExtOf X) = [] := by
  rw [mapGetD]
  cases hg : mapGet c n with
  | none => rfl
  | some b => exact hinv (n, b) (mapGet_eq_some_mem hg) hne

theorem collect_nil_of_extfree {X : String} {c : CMap}
    (h : ∀ e ∈ c, e.2.filter (isExtOf X) = []) :
    c.flatMap (fun e => e.2.filter (isExtOf X)) = [] := by
  induction c with
  | nil => rfl
  | cons e t ih =>
      simp only [List.flatMap_cons]
      rw [h e (List.mem_cons_self _ _), List.nil_append]
      exact ih (fun e' he' => h e' (List.mem_cons_of_mem _ he'))

theorem collect_of_inv {X : String} {c : CMap} (hnd : (mapKeys c).Nodup)
    (hinv : extFree X c) :
    getInheritingModels c X = (mapGetD c X).filter (isExtOf X) := by
  rw [getInheritingModels_eq_flatMap]
  induction c with
  | nil => rfl
  | cons e t ih =>
      obtain ⟨n, b⟩ := e
      rw [mapKeys_cons] at hnd
      rcases List.nodup_cons.mp hnd with ⟨hn, hnd'⟩
      by_cases hX : n = X
      · have htail : t.flatMap (fun e => e.2.filter (isExtOf X)) = [] := by
          apply collect_nil_of_extfree
          intro e' he'
          have hmem : e'.1 ∈ mapKeys t := List.mem_map_of_mem Prod.fst he'
          have hne : e'.1 ≠ X := by
            intro hh
            exact hn (by rw [hX, ← hh]; exact hmem)
          exact hinv e' (List.mem_cons_of_mem _ he') hne
        simp [List.flatMap_cons, htail, mapGetD, mapGet, hX]
      · have hhead : b.filter (isExtOf X) = [] :=
          hinv (n, b) (List.mem_cons_self _ _) hX
        have htail := ih hnd' (fun e' he' hne => hinv e' (List.mem_cons_of_mem _ he') hne)
        simp [List.flatMap_cons, hhead, htail, mapGetD, mapGet, hX]

theorem mapGetD_pushBucket_self (c : CMap) (n : String) (ms : List GextiaModel) :
    mapGetD (pushBucket c n ms) n = mapGetD c n ++ ms := by
  simp [pushBucket, mapGetD, mapGet_mapSet_self]

theorem mapGetD_pushBucket_ne (c : CMap) {n n' : String} (ms : List GextiaModel)
    (h : n' ≠ n) : mapGetD (pushBucket c n ms) n' = mapGetD c n' := by
  simp [pushBucket, mapGetD, mapGet_mapSet_ne _ _ _ _ h]

theorem extFree_pushBucket {X : String} {c : CMap} (hinv : extFree X c)
    {n : String} {ms : List GextiaModel}
    (hms : n = X ∨ ms.filter (isExtOf X) = []) :
    extFree X (pushBucket c n ms) := by
  intro e he hne
  rcases mem_mapSet_elim he with h | h
  · subst h
    simp only at hne ⊢
    have hfd : (mapGetD c n).filter (isExtOf X) = [] := extFree_getD hinv hne
    have hf2 : ms.filter (isExtOf X) = [] := by
      rcases hms with h' | h'
      · exact absurd h' hne
      · exact h'
    simp [List.filter_append, hfd, hf2]
  · exact hinv e h hne

theorem nodup_pushBucket {c : CMap} (n : String) (ms : List GextiaModel)
    (h : (mapKeys c).Nodup) : (mapKeys (pushBucket c n ms)).Nodup :=
  nodup_mapKeys_mapSet _ _ h

theorem mergeBuckets_props (X : String) : ∀ (pm : CMap) (c cc : CMap),
    (mapKeys c).Nodup → extFree X c →
    (∀ e ∈ pm, ∀ m ∈ e.2, m.name = e.1) →
    (∀ e ∈ pm, ∀ m ∈ e.2, isExtOf X m = true → m.name = X) →
    (∀ e ∈ pm, ∀ m ∈ e.2, m.modelType = ModelType.component → m.name ≠ X) →
    (mapKeys (mergeBuckets c cc pm).1).Nodup
    ∧ extFree X (mergeBuckets c cc pm).1
    ∧ mapGetD (mergeBuckets c cc pm).1 X =
        mapGetD c X ++ pm.flatMap (fun e => if e.1 = X then e.2 else [])
  | [], c, cc, hnd, hinv, _, _, _ => by
      simp [mergeBuckets]
      exact ⟨hnd, hinv⟩
  | (n, ms) :: pm', c, cc, hnd, hinv, hhom, hext, hcomp => by
      have hhom' := fun e he => hhom e (List.mem_cons_of_mem _ he)
      have hext' := fun e he => hext e (List.mem_cons_of_mem _ he)
      have hcomp' := fun e he => hcomp e (List.mem_cons_of_mem _ he)
      have hheadhom := hhom (n, ms) (List.mem_cons_self _ _)
      have hheadext := hext (n, ms) (List.mem_cons_self _ _)
      have hheadcomp := hcomp (n, ms) (List.mem_cons_self _ _)
      have hstep : mergeBuckets c cc ((n, ms) :: pm') =
          mergeBuckets (mergeEntry (c, cc) (n, ms)).1 (mergeEntry (c, cc) (n, ms)).2 pm' := by
        simp [mergeBuckets]
      rw [hstep]
      -- the filter of the bucket is empty unless the key is X
      have hfilter : n = X ∨ ms.filter (isExtOf X) = [] := by
        by_cases hX : n = X
        · exact Or.inl hX
        · refine Or.inr (List.filter_eq_nil_iff.mpr ?_)
          intro m hm
          intro habs
          exact hX ((hheadhom m hm).symm.trans (hheadext m hm habs))
      cases ms with
      | nil =>
          have hme : mergeEntry (c, cc) (n, []) = (pushBucket c n [], cc) := rfl
          rw [hme]
          have ih := mergeBuckets_props X pm' (pushBucket c n []) cc
            (nodup_pushBucket _ _ hnd) (extFree_pushBucket hinv (Or.inr rfl)) hhom' hext' hcomp'
          refine ⟨ih.1, ih.2.1, ?_⟩
          rw [ih.2.2]
          by_cases hX : n = X
          · rw [hX, mapGetD_pushBucket_self]
            simp [hX]
          · rw [mapGetD_pushBucket_ne _ _ (fun hh => hX hh.symm)]
            simp [hX]
      | cons m rest =>
          by_cases hc : m.modelType = ModelType.component
          · have hme : mergeEntry (c, cc) (n, m :: rest) =
                (c, pushBucket cc n (m :: rest)) := by
              simp [mergeEntry, hc]
            rw [hme]
            have ih := mergeBuckets_props X pm' c (pushBucket cc n (m :: rest))
              hnd hinv hhom' hext' hcomp'
            refine ⟨ih.1, ih.2.1, ?_⟩
            rw [ih.2.2]
            have hnX : ¬ n = X := by
              intro hX
              exact hheadcomp m (List.mem_cons_self _ _) hc
                ((hheadhom m (List.mem_cons_self _ _)).trans hX)
            simp [hnX]
          · have hme : mergeEntry (c, cc) (n, m :: rest) =
                (pushBucket c n (m :: rest), cc) := by
              simp [mergeEntry, hc]
            rw [hme]
            have ih := mergeBuckets_props X pm' (pushBucket c n (m :: rest)) cc
              (nodup_pushBucket _ _ hnd) (extFree_pushBucket hinv hfilter) hhom' hext' hcomp'
            refine ⟨ih.1, ih.2.1, ?_⟩
            rw [ih.2.2]
            by_cases hX : n = X
            · rw [hX, mapGetD_pushBucket_self]
              simp [hX]
            · rw [mapGetD_pushBucket_ne _ _ (fun hh => hX hh.symm)]
              simp [hX]

theorem pushModel_hom {acc : CMap} (hacc : ∀ e ∈ acc, ∀ m' ∈ e.2, m'.name = e.1)
    (m : GextiaModel) : ∀ e ∈ pushModel acc m, ∀ m' ∈ e.2, m'.name = e.1 := by
  intro e he m' hm'
  rcases mem_mapSet_elim he with h | h
  · subst h
    simp only at hm' ⊢
    rcases List.mem_append.mp hm' with h' | h'
    · rw [mapGetD] at h'
      cases hg : mapGet acc m.name with
      | none => rw [hg] at h'; simp at h'
      | some b =>
          rw [hg] at h'
          exact hacc (m.name, b) (mapGet_eq_some_mem hg) m' h'
    · simp at h'
      subst h'
      rfl
  · exact hacc e h m' hm'

theorem pushModel_pred {Q : GextiaModel → Prop} {acc : CMap}
    (hacc : ∀ e ∈ acc, ∀ m' ∈ e.2, Q m') {m : GextiaModel} (hm : Q m) :
    ∀ e ∈ pushModel acc m, ∀ m' ∈ e.2, Q m' := by
  intro e he m' hm'
  rcases mem_mapSet_elim he with h | h
  · subst h
    simp only at hm'
    rcases List.mem_append.mp hm' with h' | h'
    · rw [mapGetD] at h'
      cases hg : mapGet acc m.name with
      | none => rw [hg] at h'; simp at h'
      | some b =>
          rw [hg] at h'
          exact hacc (m.name, b) (mapGet_eq_some_mem hg) m' h'
    · simp at h'
      subst h'
      exact hm
  · exact hacc e h m' hm'

theorem foldl_pushModel_hom (l : List GextiaModel) : ∀ acc : CMap,
    (∀ e ∈ acc, ∀ m' ∈ e.2, m'.name = e.1) →
    ∀ e ∈ l.foldl pushModel acc, ∀ m' ∈ e.2, m'.name = e.1 := by
  induction l with
  | nil => intro acc hacc; exact hacc
  | cons m t ih =>
      intro acc hacc
      rw [List.foldl_cons]
      exact ih _ (pushModel_hom hacc m)

theorem foldl_pushModel_pred (Q : GextiaModel → Prop) (l : List GextiaModel) :
    ∀ acc : CMap,
    (∀ e ∈ acc, ∀ m' ∈ e.2, Q m') → (∀ m ∈ l, Q m) →
    ∀ e ∈ l.foldl pushModel acc, ∀ m' ∈ e.2, Q m' := by
  induction l with
  | nil => intro acc hacc _; exact hacc
  | cons m t ih =>
      intro acc hacc hl
      rw [List.foldl_cons]
      exact ih _ (pushModel_pred hacc (hl m (List.mem_cons_self _ _)))
        (fun x hx => hl x (List.mem_cons_of_mem _ hx))

theorem foldl_pushModel_nodup (l : List GextiaModel) : ∀ acc : CMap,
    (mapKeys acc).Nodup → (mapKeys (l.foldl pushModel acc)).Nodup := by
  induction l with
  | nil => intro acc h; exact h
  | cons m t ih =>
      intro acc h
      rw [List.foldl_cons]
      exact ih _ (nodup_mapKeys_mapSet _ _ h)

theorem foldl_pushModel_getD (X : String) (l : List GextiaModel) : ∀ acc : CMap,
    mapGetD (l.foldl pushModel acc) X =
      mapGetD acc X ++ l.filter (fun m => m.name == X) := by
  induction l with
  | nil => intro acc; simp
  | cons m t ih =>
      intro acc
      rw [List.foldl_cons, ih]
      by_cases h : m.name = X
      · have hp : mapGetD (pushModel acc m) X = mapGetD acc X ++ [m] := by
          rw [show pushModel acc m = pushBucket acc m.name [m] from rfl, h,
            mapGetD_pushBucket_self]
        rw [hp, List.filter_cons]
        simp [h, List.append_assoc]
      · have hp : mapGetD (pushModel acc m) X = mapGetD acc X := by
          rw [show pushModel acc m = pushBucket acc m.name [m] from rfl,
            mapGetD_pushBucket_ne _ _ (fun hh => h hh.symm)]
        rw [hp, List.filter_cons]
        simp [h]

theorem flatX_nil_of_not_mem (X : String) : ∀ pm : CMap, X ∉ mapKeys pm →
    pm.flatMap (fun e => if e.1 = X then e.2 else []) = [] := by
  intro pm
  induction pm with
  | nil => intro _; rfl
  | cons e t ih =>
      obtain ⟨n, b⟩ := e
      intro h
      rw [mapKeys_cons, List.mem_cons] at h
      push_neg at h
      simp only [List.flatMap_cons]
      rw [if_neg (fun hh => h.1 hh.symm), List.nil_append]
      exact ih h.2

theorem flatX_eq_getD (X : String) : ∀ pm : CMap, (mapKeys pm).Nodup →
    pm.flatMap (fun e => if e.1 = X then e.2 else []) = mapGetD pm X := by
  intro pm
  induction pm with
  | nil => intro _; rfl
  | cons e t ih =>
      obtain ⟨n, b⟩ := e
      intro hnd
      rw [mapKeys_cons] at hnd
      rcases List.nodup_cons.mp hnd with ⟨hn, hnd'⟩
      simp only [List.flatMap_cons]
      by_cases h : n = X
      · rw [if_pos h, flatX_nil_of_not_mem X t (h ▸ hn), List.append_nil]
        simp [mapGetD, mapGet, h]
      · rw [if_neg h, List.nil_append, ih hnd']
        simp [mapGetD, mapGet, h]

theorem filter_filter_of_imp {α : Type} (p q : α → Bool) : ∀ l : List α,
    (∀ m ∈ l, q m = true → p m = true) →
    (l.filter p).filter q = l.filter q := by
  intro l
  induction l with
  | nil => intro _; rfl
  | cons a t ih =>
      intro h
      have ht := ih (fun m hm => h m (List.mem_cons_of_mem _ hm))
      by_cases hq : q a = true
      · have hp : p a = true := h a (List.mem_cons_self _ _) hq
        simp [List.filter_cons, hp, hq, ht]
      · by_cases hp : p a = true <;> simp [List.filter_cons, hp, hq, ht]

/-- The descriptors a full refresh encounters, in root/file/descriptor scan
order (missing roots contribute nothing). -/
def scannedModels : List RootItem → List GextiaModel
  | [] => []
  | RootItem.ok fs :: t => fs.flatMap parseFileModels ++ scannedModels t
  | RootItem.missing :: t => scannedModels t
  | RootItem.crash :: t => scannedModels t

theorem refreshLoop_cache_props (X : String) : ∀ (items : List RootItem)
    (s : ModelsCacheState),
    RootItem.crash ∉ items →
    (∀ m ∈ scannedModels items, isExtOf X m = true → m.name = X) →
    (∀ m ∈ scannedModels items, m.modelType = ModelType.component → m.name ≠ X) →
    (mapKeys s.cache).Nodup → extFree X s.cache →
    (mapKeys (refreshLoop items s).2.cache).Nodup
    ∧ extFree X (refreshLoop items s).2.cache
    ∧ mapGetD (refreshLoop items s).2.cache X =
        mapGetD s.cache X ++ (scannedModels items).filter (fun m => m.name == X) := by
  intro items
  induction items with
  | nil =>
      intro s _ _ _ hnd hinv
      exact ⟨hnd, hinv, by simp [refreshLoop, scannedModels]⟩
  | cons it t ih =>
      intro s hnc h1 h2 hnd hinv
      have hnct : RootItem.crash ∉ t := fun hh => hnc (List.mem_cons_of_mem _ hh)
      cases it with
      | crash => exact absurd (List.mem_cons_self _ _) hnc
      | missing =>
          have hstep : refreshLoop (RootItem.missing :: t) s = refreshLoop t s := rfl
          have hsc : scannedModels (RootItem.missing :: t) = scannedModels t := rfl
          rw [hstep, hsc]
          exact ih s hnct (hsc ▸ h1) (hsc ▸ h2) hnd hinv
      | ok files =>
          have hsc : scannedModels (RootItem.ok files :: t) =
              files.flatMap parseFileModels ++ scannedModels t := rfl
          have h1r : ∀ m ∈ files.flatMap parseFileModels, isExtOf X m = true → m.name = X :=
            fun m hm => h1 m (hsc ▸ List.mem_append_left _ hm)
          have h2r : ∀ m ∈ files.flatMap parseFileModels,
              m.modelType = ModelType.component → m.name ≠ X :=
            fun m hm => h2 m (hsc ▸ List.mem_append_left _ hm)
          have h1t : ∀ m ∈ scannedModels t, isExtOf X m = true → m.name = X :=
            fun m hm => h1 m (hsc ▸ List.mem_append_right _ hm)
          have h2t : ∀ m ∈ scannedModels t,
              m.modelType = ModelType.component → m.name ≠ X :=
            fun m hm => h2 m (hsc ▸ List.mem_append_right _ hm)
          -- properties of the grouped map of this root
          have hpmhom : ∀ e ∈ parseModelsInPath files, ∀ m' ∈ e.2, m'.name = e.1 :=
            foldl_pushModel_hom _ [] (by intro e he; simp at he)
          have hpmmem : ∀ e ∈ parseModelsInPath files, ∀ m' ∈ e.2,
              m' ∈ files.flatMap parseFileModels :=
            foldl_pushModel_pred _ _ [] (by intro e he; simp at he) (fun m hm => hm)
          have hpmnodup : (mapKeys (parseModelsInPath files)).Nodup :=
            foldl_pushModel_nodup _ [] (by simp [mapKeys])
          have mp := mergeBuckets_props X (parseModelsInPath files) s.cache
            s.componentsCache hnd hinv hpmhom
            (fun e he m hm hx => h1r m (hpmmem e he m hm) hx)
            (fun e he m hm hc => h2r m (hpmmem e he m hm) hc)
          have hstep : refreshLoop (RootItem.ok files :: t) s =
              refreshLoop t
                { s with
                    cache := (mergeBuckets s.cache s.componentsCache
                      (parseModelsInPath files)).1,
                    componentsCache := (mergeBuckets s.cache s.componentsCache
                      (parseModelsInPath files)).2,
                    fileModificationTimes :=
                      recordMtimes s.fileModificationTimes files } := rfl
          rw [hstep, hsc]
          have ihr := ih
            { s with
                cache := (mergeBuckets s.cache s.componentsCache
                  (parseModelsInPath files)).1,
                componentsCache := (mergeBuckets s.cache s.componentsCache
                  (parseModelsInPath files)).2,
                fileModificationTimes :=
                  recordMtimes s.fileModificationTimes files }
            hnct h1t h2t mp.1 mp.2.1
          refine ⟨ihr.1, ihr.2.1, ?_⟩
          rw [ihr.2.2]
          have hbucket : mapGetD (mergeBuckets s.cache s.componentsCache
              (parseModelsInPath files)).1 X =
              mapGetD s.cache X ++
                (files.flatMap parseFileModels).filter (fun m => m.name == X) := by
            rw [mp.2.2, flatX_eq_getD X _ hpmnodup,
              show parseModelsInPath files =
                (files.flatMap parseFileModels).foldl pushModel [] from rfl,
              foldl_pushModel_getD]
            simp [mapGetD, mapGet]
          simp only [hbucket]
          rw [List.filter_append, List.append_assoc]

/-- An extension descriptor, as `parseModelClass` builds one for a class
with `_inherit` and no `_name`: the registry name IS the inherited name. -/
def sampleExtension (nm fp : String) : GextiaModel :=
  { name := nm, className := "E", filePath := fp, moduleName := "m",
    isInherit := true, inheritFrom := some nm, fields := [], methods := [],
    dependencies := [], lineNumber := 1, modelType := ModelType.model }

/-- A tree in which exactly one file declares an extension of x, plus one
file declaring a component also named x (scanned first). -/
def envC6 : List RootItem :=
  [RootItem.ok
    [{ path := "/r/m/models/c.py", mtime := 1, models := [sampleComponent "x" ""] },
     { path := "/r/m/models/e.py", mtime := 1, models := [sampleExtension "x" ""] }]]

/-- C6 counterexample: in this tree exactly N = 1 files declare an extension
of x, yet after a full refresh getInheritingModels(x) returns 0 descriptors:
the component named x heads the grouped name bucket, so refreshCache routes
the whole bucket — the extension included — into the components partition,
which getInheritingModels never scans. -/
theorem getInheritingModels_component_counterexample :
    ((scannedModels envC6).filter (isExtOf "x")).length = 1
    ∧ (getInheritingModels (refreshCache envC6 freshCacheState).cache "x").length = 0 := by
  decide

/-- C6 amended: after a full refresh (from any non-refreshing state, with no
root-iteration crash) of a tree whose descriptors include exactly N
extensions of X — descriptors with isInherit true and inheritFrom X, which
the parser always names X — one per file, and PROVIDED no scanned file
declares a component whose name is X, getInheritingModels(X) returns exactly
those N descriptors in scan order, one per file, each with isInherit = true
and inheritFrom = X. -/
theorem getInheritingModels_merge_complete (items : List RootItem)
    (s : ModelsCacheState) (X : String) (N : Nat)
    (hflag : s.isRefreshing = false)
    (hnc : RootItem.crash ∉ items)
    (h1 : ∀ m ∈ scannedModels items, isExtOf X m = true → m.name = X)
    (h2 : ∀ m ∈ scannedModels items, m.modelType = ModelType.component → m.name ≠ X)
    (hN : ((scannedModels items).filter (isExtOf X)).length = N)
    (hdist : ((scannedModels items).filter (isExtOf X)).Pairwise
      (fun a b => a.filePath ≠ b.filePath)) :
    getInheritingModels (refreshCache items s).cache X =
      (scannedModels items).filter (isExtOf X)
    ∧ (getInheritingModels (refreshCache items s).cache X).length = N
    ∧ (getInheritingModels (refreshCache items s).cache X).Pairwise
        (fun a b => a.filePath ≠ b.filePath)
    ∧ ∀ m ∈ getInheritingModels (refreshCache items s).cache X,
        m.isInherit = true ∧ m.inheritFrom = some X := by
  set s0 : ModelsCacheState :=
    { cache := [], componentsCache := [], fileModificationTimes := [],
      isInitialized := s.isInitialized, isRefreshing := true } with hs0
  have hcache : (refreshCache items s).cache = (refreshLoop items s0).2.cache := by
    simp [refreshCache, refreshCacheRun, hflag, hs0]
  have props := refreshLoop_cache_props X items s0
    hnc h1 h2 (by simp [hs0, mapKeys]) (by intro e he hne; simp [hs0] at he)
  have himp : ∀ m ∈ scannedModels items, isExtOf X m = true → (m.name == X) = true := by
    intro m hm hx
    rw [h1 m hm hx]
    simp
  have hmain : getInheritingModels (refreshCache items s).cache X =
      (scannedModels items).filter (isExtOf X) := by
    rw [hcache, collect_of_inv props.1 props.2.1, props.2.2]
    rw [show mapGetD s0.cache X = [] from rfl, List.nil_append]
    exact filter_filter_of_imp _ _ _ himp
  refine ⟨hmain, ?_, ?_, ?_⟩
  · rw [hmain, hN]
  · rw [hmain]
    exact hdist
  · intro m hm
    rw [hmain] at hm
    have hx : isExtOf X m = true := (List.mem_filter.mp hm).2
    rw [isExtOf, Bool.and_eq_true] at hx
    exact ⟨hx.1, by simpa using hx.2⟩

/-- A tree with a single extension of x and nothing else. -/
def envC6w : List RootItem :=
  [RootItem.ok [{ path := "/r/m/models/e.py", mtime := 1,
                  models := [sampleExtension "x" ""] }]]

theorem getInheritingModels_merge_complete_witness :
    getInheritingModels (refreshCache envC6w freshCacheState).cache "x" =
      (scannedModels envC6w).filter (isExtOf "x")
    ∧ (getInheritingModels (refreshCache envC6w freshCacheState).cache "x").length = 1
    ∧ (getInheritingModels (refreshCache envC6w freshCacheState).cache "x").Pairwise
        (fun a b => a.filePath ≠ b.filePath)
    ∧ ∀ m ∈ getInheritingModels (refreshCache envC6w freshCacheState).cache "x",
        m.isInherit = true ∧ m.inheritFrom = some "x" :=
  getInheritingModels_merge_complete envC6w freshCacheState "x" 1 rfl (by decide)
    (by decide) (by decide) (by decide) (by decide)

/-! ## C7: field property parsing (modelParser parseFieldProperties /
parseArgumentValue, lines 442-495)

JavaScript strings are embedded as character lists; `String.split(sep)`
keeps empty pieces, `split(sep, 2)` keeps the first two pieces. -/

def isWSChar (c : Char) : Bool := c = ' ' || c = '\t' || c = '\n' || c = '\r'

/-- `String.prototype.trim`. -/
def trimChars (l : List Char) : List Char :=
  ((l.dropWhile isWSChar).reverse.dropWhile isWSChar).reverse

/-- `String.prototype.split(sep)` — splits on every occurrence, keeping
empty pieces. -/
def splitOnChar (sep : Char) : List Char → List (List Char)
  | [] => [[]]
  | c :: t =>
      let r := splitOnChar sep t
      if c = sep then [] :: r
      else
        match r with
        | h :: t2 => (c :: h) :: t2
        | [] => [[c]]

/-- The single-quote character. -/
def squoteChar : Char := Char.ofNat 39

/-- The double-quote character. -/
def dquoteChar : Char := Char.ofNat 34

/-- `v.startsWith(q) && v.endsWith(q)`. -/
def isQuotedBy (q : Char) (l : List Char) : Bool :=
  (l.head? == some q) && (l.getLast? == some q)

/-- `/^\d+$/`. -/
def isDigitsOnly (l : List Char) : Bool := !l.isEmpty && l.all Char.isDigit

/-- `/^\d+\.\d+$/`. -/
def isFloatShape (l : List Char) : Bool :=
  match splitOnChar '.' l with
  | [a, b] => isDigitsOnly a && isDigitsOnly b
  | _ => false

/-- `parseInt` on a pure-digit string. -/
def natOfDigits (l : List Char) : Nat := l.foldl (fun n c => 10 * n + (c.toNat - 48)) 0

/-- `ModelParser.parseArgumentValue`: quoted strings lose their quotes
(`slice(1, -1)`), `True`/`False` become booleans, pure digits an integer,
digit-dot-digit a float, anything else stays raw text. -/
def parseArgumentValue (v0 : List Char) : FieldValue :=
  let v := trimChars v0
  if isQuotedBy squoteChar v || isQuotedBy dquoteChar v then
    FieldValue.str (String.mk ((v.drop 1).dropLast))
  else if v = "True".toList then FieldValue.boolean true
  else if v = "False".toList then FieldValue.boolean false
  else if isDigitsOnly v then FieldValue.int (natOfDigits v)
  else if isFloatShape v then FieldValue.float (String.mk v)
  else FieldValue.str (String.mk v)

/-- The body of the `for (let arg of args)` loop of `parseFieldProperties`:
an argument containing = becomes a key/value property via `split('=', 2)`;
a non-empty argument without ( becomes the conventional positional property
comodel_name; anything else contributes nothing. -/
def handleArg (arg0 : List Char) : List FieldProperty :=
  let arg := trimChars arg0
  if arg.contains '=' then
    let parts := splitOnChar '=' arg
    let key := parts.headD []
    let value := (parts.drop 1).headD []
    [{ name := String.mk (trimChars key), value := parseArgumentValue (trimChars value) }]
  else if !arg.isEmpty && !arg.contains '(' then
    [{ name := "comodel_name", value := parseArgumentValue arg }]
  else []

/-- `ModelParser.parseFieldProperties`: `argsString.split(',')`, every
comma splitting, then the per-argument handling. -/
def parseFieldPropertiesL (argsString : List Char) : List FieldProperty :=
  (splitOnChar ',' argsString).foldl (fun acc arg => acc ++ handleArg arg) []

/-- The same on a String input. -/
def parseFieldProperties (argsString : String) : List FieldProperty :=
  parseFieldPropertiesL argsString.toList

theorem splitOnChar_ne_nil (sep : Char) : ∀ l : List Char, splitOnChar sep l ≠ [] := by
  intro l
  cases l with
  | nil => simp [splitOnChar]
  | cons c t =>
      rw [splitOnChar]
      by_cases h : c = sep
      · simp [h]
      · simp only [if_neg h]
        cases splitOnChar sep t with
        | nil => simp
        | cons h2 t2 => simp

theorem splitOnChar_single (sep : Char) : ∀ l : List Char,
    l.contains sep = false → splitOnChar sep l = [l] := by
  intro l
  induction l with
  | nil => intro _; rfl
  | cons c t ih =>
      intro h
      simp only [List.contains_cons, Bool.or_eq_false_iff] at h
      have hc : ¬ c = sep := by
        intro hh
        rw [hh] at h
        simp at h
      rw [splitOnChar, if_neg hc, ih h.2]

theorem splitOnChar_append (sep : Char) : ∀ (s1 s2 : List Char),
    s1.contains sep = false →
    splitOnChar sep (s1 ++ sep :: s2) = s1 :: splitOnChar sep s2 := by
  intro s1
  induction s1 with
  | nil => intro s2 _; simp [splitOnChar]
  | cons c t ih =>
      intro s2 h
      simp only [List.contains_cons, Bool.or_eq_false_iff] at h
      have hc : ¬ c = sep := by
        intro hh
        rw [hh] at h
        simp at h
      rw [List.cons_append, splitOnChar, if_neg hc, ih s2 h.2]

/-- C7 amended: the argument text is split on EVERY comma — commas inside
nested parentheses split too, since the source tracks no parenthesis depth
(`argsString.split(',')`); each argument containing = becomes a property
named by its trimmed left side with the coerced right side as value; a bare
non-empty argument without ( becomes comodel_name; bare arguments containing
( are dropped. Coercions are as claimed, and the concrete example
string="Customer", required=True, index=42 yields exactly the three
properties (string, "Customer"), (required, true), (index, 42) in order. -/
theorem parseFieldProperties_amended_split (s1 s2 : List Char)
    (h : s1.contains ',' = false) :
    parseFieldPropertiesL (s1 ++ ',' :: s2) =
      parseFieldPropertiesL s1 ++ parseFieldPropertiesL s2
    ∧ parseFieldProperties "string=\"Customer\", required=True, index=42" =
        [{ name := "string", value := FieldValue.str "Customer" },
         { name := "required", value := FieldValue.boolean true },
         { name := "index", value := FieldValue.int 42 }]
    ∧ parseFieldProperties "'res.partner'" =
        [{ name := "comodel_name", value := FieldValue.str "res.partner" }] := by
  refine ⟨?_, by decide, by decide⟩
  simp only [parseFieldPropertiesL, foldl_append_collect, List.nil_append]
  rw [splitOnChar_append _ _ _ h, splitOnChar_single _ _ h]
  simp [List.flatMap_cons]

/-- Witness for C7 amended at a concrete split: the comma inside f(1, 2). -/
theorem parseFieldProperties_amended_split_witness :
    parseFieldPropertiesL ("default=f(1".toList ++ ',' :: " 2)".toList) =
      parseFieldPropertiesL "default=f(1".toList ++ parseFieldPropertiesL " 2)".toList
    ∧ parseFieldProperties "string=\"Customer\", required=True, index=42" =
        [{ name := "string", value := FieldValue.str "Customer" },
         { name := "required", value := FieldValue.boolean true },
         { name := "index", value := FieldValue.int 42 }]
    ∧ parseFieldProperties "'res.partner'" =
        [{ name := "comodel_name", value := FieldValue.str "res.partner" }] :=
  parseFieldProperties_amended_split "default=f(1".toList " 2)".toList (by decide)

/-- C7 counterexample: on the argument text default=f(1, 2) the comma inside
the nested parentheses DOES split: the source yields a truncated default
property and a spurious comodel_name property, not the single property the
claim requires. -/
theorem parseFieldProperties_paren_comma_counterexample :
    parseFieldProperties "default=f(1, 2)" =
      [{ name := "default", value := FieldValue.str "f(1" },
       { name := "comodel_name", value := FieldValue.str "2)" }]
    ∧ parseFieldProperties "default=f(1, 2)" ≠
        [{ name := "default", value := FieldValue.str "f(1, 2)" }] := by
  decide

/-! ## C10: parseModelsInFile / parseModelClass (modelParser lines 255-406)

The line-oriented regex matchers of the source are embedded as anchored
character-list matchers plus a leftmost search over line suffixes. -/

def isWordChar (c : Char) : Bool := c.isAlphanum || c = '_'

def isQuoteChar (c : Char) : Bool := c = squoteChar || c = dquoteChar

/-- Leftmost search: try the anchored matcher at every suffix of the line. -/
def searchLine (f : List Char → Option (List Char)) : List Char → Option (List Char)
  | [] => none
  | c :: t =>
      match f (c :: t) with
      | some r => some r
      | none => searchLine f t

/-- Match the tail `['"]([^'"]+)['"]` of the assignment patterns. -/
def matchQuotedBody : List Char → Option (List Char)
  | [] => none
  | q :: r =>
      if isQuoteChar q then
        let body := r.takeWhile (fun d => !isQuoteChar d)
        match r.drop body.length with
        | q2 :: _ => if isQuoteChar q2 && !body.isEmpty then some body else none
        | [] => none
      else none

/-- Match `key\s*=\s*['"]([^'"]+)['"]` anchored at the start of the list. -/
def matchAssignQuoted (key : List Char) (l : List Char) : Option (List Char) :=
  if List.isPrefixOf key l then
    match (l.drop key.length).dropWhile isWSChar with
    | c :: r2 => if c = '=' then matchQuotedBody (r2.dropWhile isWSChar) else none
    | [] => none
  else none

/-- Match `key\s*=\s*\[\s*['"]([^'"]+)['"]` anchored at the start. -/
def matchAssignQuotedList (key : List Char) (l : List Char) : Option (List Char) :=
  if List.isPrefixOf key l then
    match (l.drop key.length).dropWhile isWSChar with
    | c :: r2 =>
        if c = '=' then
          match r2.dropWhile isWSChar with
          | b :: r4 => if b = '[' then matchQuotedBody (r4.dropWhile isWSChar) else none
          | [] => none
        else none
    | [] => none
  else none

def nameKey : List Char := "_name".toList

def inheritKey : List Char := "_inherit".toList

/-- `ModelParser.extractModelName`: first line matching `_name = '...'`. -/
def extractModelName : List (List Char) → Option (List Char)
  | [] => none
  | ln :: t =>
      match searchLine (matchAssignQuoted nameKey) ln with
      | some b => some b
      | none => extractModelName t

/-- `ModelParser.extractInheritFrom`: per line, the simple-string pattern is
tried before the list pattern (whose first element is taken). -/
def extractInheritFrom : List (List Char) → Option (List Char)
  | [] => none
  | ln :: t =>
      match searchLine (matchAssignQuoted inheritKey) ln with
      | some b => some b
      | none =>
          match searchLine (matchAssignQuotedList inheritKey) ln with
          | some b => some b
          | none => extractInheritFrom t

/-- `ModelParser.getIndentLevel`: spaces count 1, tabs count 4. -/
def getIndentLevel : List Char → Nat
  | [] => 0
  | c :: t =>
      if c = ' ' then 1 + getIndentLevel t
      else if c = '\t' then 4 + getIndentLevel t
      else 0

/-- Number of body lines after the header: stop before the first non-blank
line indented at most as much as the class header. -/
def classBodyLen (classIndent : Nat) : List (List Char) → Nat
  | [] => 0
  | ln :: t =>
      if !(trimChars ln).isEmpty && getIndentLevel ln ≤ classIndent then 0
      else 1 + classBodyLen classIndent t

/-- `lines.slice(startLine, endLine)` of `parseModelClass` — the header line
plus its indentation-bounded body. -/
def classContentAt (lines : List (List Char)) (startLine : Nat) : List (List Char) :=
  match lines.drop startLine with
  | [] => []
  | h :: t => h :: t.take (classBodyLen (getIndentLevel h) t)

def fieldsDotKey : List Char := "fields.".toList

/-- The greedy `(.*)\)` tail: everything up to the LAST `)`, if any. -/
def splitAtLastParen (l : List Char) : Option (List Char) :=
  let rev := l.reverse
  let after := rev.takeWhile (fun c => !(c = ')'))
  if after.length = rev.length then none
  else some ((rev.drop (after.length + 1)).reverse)

/-- Match `^\s*(\w+)\s*=\s*fields\.(\w+)\s*\((.*)\)` against one line. -/
def matchFieldLine (l : List Char) : Option (List Char × List Char × List Char) :=
  let l1 := l.dropWhile isWSChar
  let nm := l1.takeWhile isWordChar
  if nm.isEmpty then none
  else
    match (l1.drop nm.length).dropWhile isWSChar with
    | c :: r =>
        if c = '=' then
          let l3 := r.dropWhile isWSChar
          if List.isPrefixOf fieldsDotKey l3 then
            let l4 := l3.drop fieldsDotKey.length
            let ty := l4.takeWhile isWordChar
            if ty.isEmpty then none
            else
              match (l4.drop ty.length).dropWhile isWSChar with
              | p :: rest =>
                  if p = '(' then
                    match splitAtLastParen rest with
                    | some args => some (nm, ty, args)
                    | none => none
                  else none
              | [] => none
          else none
        else none
    | [] => none

/-- `extractFieldDocString`: the nearest preceding non-blank line, if it is
a `#` comment (after trimming). -/
def fieldDocSearch : List (List Char) → Option (List Char)
  | [] => none
  | ln :: t =>
      match trimChars ln with
      | c :: rest => if c = '#' then some (trimChars rest) else none
      | [] => fieldDocSearch t

def extractFieldDocString (content : List (List Char)) (i : Nat) : Option (List Char) :=
  fieldDocSearch (content.take i).reverse

/-- `ModelParser.extractFields` over the class content. -/
def extractFields (classContent : List (List Char)) (startLine : Nat) : List GextiaField :=
  (List.range classContent.length).filterMap (fun i =>
    match classContent.get? i with
    | some ln =>
        match matchFieldLine ln with
        | some r =>
            some { name := String.mk r.1, type := String.mk r.2.1,
                   properties := parseFieldPropertiesL r.2.2,
                   lineNumber := startLine + i + 1,
                   docString := (extractFieldDocString classContent i).map String.mk }
        | none => none
    | none => none)

def defKey : List Char := "def".toList

/-- Match `^\s*def\s+(\w+)\s*\(([^)]*)\)` against one line. -/
def matchDefLine (l : List Char) : Option (List Char × List Char) :=
  let l1 := l.dropWhile isWSChar
  if List.isPrefixOf defKey l1 then
    match l1.drop 3 with
    | c :: _ =>
        if isWSChar c then
          let l2 := (l1.drop 3).dropWhile isWSChar
          let nm := l2.takeWhile isWordChar
          if nm.isEmpty then none
          else
            match (l2.drop nm.length).dropWhile isWSChar with
            | p :: rest =>
                if p = '(' then
                  let params := rest.takeWhile (fun d => !(d = ')'))
                  match rest.drop params.length with
                  | _ :: _ => some (nm, params)
                  | [] => none
                else none
            | [] => none
        else none
    | [] => none
  else none

/-- `parseMethodParameters`: split on commas, trim, drop empties. -/
def parseMethodParameters (p : List Char) : List String :=
  (((splitOnChar ',' p).map trimChars).filter (fun x => !x.isEmpty)).map String.mk

/-- `extractDecorators`: walk upward collecting `@`-lines (sans the `@`),
skipping blanks, stopping at the first other non-blank line. -/
def decoSearch : List (List Char) → List (List Char) → List (List Char)
  | [], acc => acc
  | ln :: t, acc =>
      match trimChars ln with
      | c :: rest => if c = '@' then decoSearch t (rest :: acc) else acc
      | [] => decoSearch t acc

def extractDecorators (content : List (List Char)) (i : Nat) : List (List Char) :=
  decoSearch (content.take i).reverse []

def tripleSQ : List Char := [squoteChar, squoteChar, squoteChar]

def tripleDQ : List Char := [dquoteChar, dquoteChar, dquoteChar]

/-- A trimmed line opening with a triple quote yields `slice(3, -3).trim()`. -/
def methodDocLine (ln : List Char) : Option (List Char) :=
  let tr := trimChars ln
  if List.isPrefixOf tripleDQ tr || List.isPrefixOf tripleSQ tr then
    some (trimChars ((tr.drop 3).take (tr.length - 6)))
  else none

def findFirstDoc : List (List Char) → Option (List Char)
  | [] => none
  | ln :: t =>
      match methodDocLine ln with
      | some d => some d
      | none => findFirstDoc t

/-- `extractMethodDocString`: scan up to four lines after the signature. -/
def extractMethodDocString (content : List (List Char)) (i : Nat) : Option (List Char) :=
  findFirstDoc ((content.drop (i + 1)).take 4)

/-- `ModelParser.extractMethods` over the class content. -/
def extractMethods (classContent : List (List Char)) (startLine : Nat) : List GextiaMethod :=
  (List.range classContent.length).filterMap (fun i =>
    match classContent.get? i with
    | some ln =>
        match matchDefLine ln with
        | some r =>
            some { name := String.mk r.1,
                   parameters := parseMethodParameters r.2,
                   decorators := (extractDecorators classContent i).map String.mk,
                   lineNumber := startLine + i + 1,
                   docString := (extractMethodDocString classContent i).map String.mk }
        | none => none
    | none => none)

/-- `ModelParser.parseModelClass`: a class with neither `_name` nor
`_inherit` yields no descriptor; `isInherit` holds only when `_inherit` is
present without `_name`; the registry name is `_name || _inherit`. -/
def parseModelClass (lines : List (List Char)) (startLine : Nat)
    (className : List Char) (filePath moduleName : String) (deps : List String)
    (modelType : ModelType) : Option GextiaModel :=
  let classContent := classContentAt lines startLine
  let modelName := extractModelName classContent
  let inheritFrom := extractInheritFrom classContent
  let isInherit := inheritFrom.isSome && !modelName.isSome
  if modelName.isNone && inheritFrom.isNone then none
  else
    some { name := String.mk (modelName.getD (inheritFrom.getD "unknown".toList)),
           className := String.mk className, filePath := filePath,
           moduleName := moduleName, isInherit := isInherit,
           inheritFrom := inheritFrom.map String.mk,
           fields := extractFields classContent startLine,
           methods := extractMethods classContent startLine,
           dependencies := deps, lineNumber := startLine + 1,
           modelType := modelType }

/-- `extractComponentName`, textually the same pattern as `_name`. -/
def extractComponentName : List (List Char) → Option (List Char)
  | [] => none
  | ln :: t =>
      match searchLine (matchAssignQuoted nameKey) ln with
      | some b => some b
      | none => extractComponentName t

def applyOnKey : List Char := "_apply_on".toList

def collectionKey : List Char := "_collection".toList

/-- `extractApplyOn` — extracted by the source but never stored. -/
def extractApplyOn : List (List Char) → Option (List Char)
  | [] => none
  | ln :: t =>
      match searchLine (matchAssignQuoted applyOnKey) ln with
      | some b => some b
      | none => extractApplyOn t

/-- `extractCollection` — extracted by the source but never stored. -/
def extractCollection : List (List Char) → Option (List Char)
  | [] => none
  | ln :: t =>
      match searchLine (matchAssignQuoted collectionKey) ln with
      | some b => some b
      | none => extractCollection t

/-- `ModelParser.parseComponentClass`: requires `_name`; components carry
methods but no fields, are never extensions, and are tagged component. -/
def parseComponentClass (lines : List (List Char)) (startLine : Nat)
    (className : List Char) (filePath moduleName : String) (deps : List String) :
    Option GextiaModel :=
  let classContent := classContentAt lines startLine
  match extractComponentName classContent with
  | none => none
  | some nm =>
      some { name := String.mk nm, className := String.mk className,
             filePath := filePath, moduleName := moduleName,
             isInherit := false, inheritFrom := none, fields := [],
             methods := extractMethods classContent startLine,
             dependencies := deps, lineNumber := startLine + 1,
             modelType := ModelType.component }

def classKw : List Char := "class".toList

def modelsModelSig : List Char := "models.Model".toList

def abstractModelSig : List Char := "models.AbstractModel".toList

def componentSig : List Char := "Component".toList

/-- Match `^class\s+(\w+)\s*\(\s*BASE\s*\)` (anchored at line start). -/
def matchClassHeader (base : List Char) (l : List Char) : Option (List Char) :=
  if List.isPrefixOf classKw l then
    match l.drop 5 with
    | c :: _ =>
        if isWSChar c then
          let r1 := (l.drop 5).dropWhile isWSChar
          let cn := r1.takeWhile isWordChar
          if cn.isEmpty then none
          else
            match (r1.drop cn.length).dropWhile isWSChar with
            | p :: r3 =>
                if p = '(' then
                  let r4 := r3.dropWhile isWSChar
                  if List.isPrefixOf base r4 then
                    match (r4.drop base.length).dropWhile isWSChar with
                    | q :: _ => if q = ')' then some cn else none
                    | [] => none
                  else none
                else none
            | [] => none
        else none
    | [] => none
  else none

/-- `ModelParser.parseModelsInFile`: three passes over all lines — ordinary
models, abstract models, components — concatenated in that order. -/
def parseModelsInFile (lines : List (List Char)) (filePath moduleName : String)
    (deps : List String) : List GextiaModel :=
  ((List.range lines.length).filterMap (fun i =>
    match lines.get? i with
    | some ln =>
        match matchClassHeader modelsModelSig ln with
        | some cn => parseModelClass lines i cn filePath moduleName deps ModelType.model
        | none => none
    | none => none))
  ++ ((List.range lines.length).filterMap (fun i =>
    match lines.get? i with
    | some ln =>
        match matchClassHeader abstractModelSig ln with
        | some cn => parseModelClass lines i cn filePath moduleName deps ModelType.abstract_model
        | none => none
    | none => none))
  ++ ((List.range lines.length).filterMap (fun i =>
    match lines.get? i with
    | some ln =>
        match matchClassHeader componentSig ln with
        | some cn => parseComponentClass lines i cn filePath moduleName deps
        | none => none
    | none => none))

theorem mem_getInheritingModels_isInherit {c : CMap} {X : String} {m : GextiaModel}
    (h : m ∈ getInheritingModels c X) : m.isInherit = true := by
  rw [getInheritingModels_eq_flatMap] at h
  simp only [List.mem_flatMap] at h
  obtain ⟨e, _, hm⟩ := h
  have hp := (List.mem_filter.mp hm).2
  rw [isExtOf, Bool.and_eq_true] at hp
  exact hp.1

/-- C10: a parsed class whose body declares both an identity _name = 'A' and
an extension target _inherit = 'B' produces a descriptor with
isInherit = false, name = A and inheritFrom = B; parseModelsInFile returns
it, any registry push stores it in the bucket of A, and it is never returned
by getInheritingModels(B). -/
theorem parseModelClass_name_and_inherit (lines : List (List Char)) (i : Nat)
    (ln cn A B : List Char) (fp mn : String) (deps : List String) (c : CMap)
    (hline : lines.get? i = some ln)
    (hhd : matchClassHeader modelsModelSig ln = some cn)
    (hA : extractModelName (classContentAt lines i) = some A)
    (hB : extractInheritFrom (classContentAt lines i) = some B) :
    ∃ d, parseModelClass lines i cn fp mn deps ModelType.model = some d
      ∧ d ∈ parseModelsInFile lines fp mn deps
      ∧ d.isInherit = false
      ∧ d.name = String.mk A
      ∧ d.inheritFrom = some (String.mk B)
      ∧ mapGetD (pushModel c d) (String.mk A) = mapGetD c (String.mk A) ++ [d]
      ∧ d ∉ getInheritingModels c (String.mk B) := by
  have hd : parseModelClass lines i cn fp mn deps ModelType.model =
      some { name := String.mk A, className := String.mk cn, filePath := fp,
             moduleName := mn, isInherit := false,
             inheritFrom := some (String.mk B),
             fields := extractFields (classContentAt lines i) i,
             methods := extractMethods (classContentAt lines i) i,
             dependencies := deps, lineNumber := i + 1,
             modelType := ModelType.model } := by
    simp [parseModelClass, hA, hB]
  refine ⟨_, hd, ?_, rfl, rfl, rfl, ?_, ?_⟩
  · have hlt : i < lines.length := by
      by_contra hge
      push_neg at hge
      rw [List.get?_eq_none.mpr hge] at hline
      exact Option.noConfusion hline
    apply List.mem_append_left
    apply List.mem_append_left
    apply List.mem_filterMap.mpr
    refine ⟨i, List.mem_range.mpr hlt, ?_⟩
    rw [hline]
    show (match matchClassHeader modelsModelSig ln with
          | some cn => parseModelClass lines i cn fp mn deps ModelType.model
          | none => none) = _
    rw [hhd]
    exact hd
  · exact mapGetD_pushBucket_self c (String.mk A) _
  · intro habs
    have := mem_getInheritingModels_isInherit habs
    simp at this

/-- A file with one class declaring both _name = 'a' and _inherit = 'b'. -/
def linesC10 : List (List Char) :=
  ["class Foo(models.Model):".toList,
   "    _name = 'a'".toList,
   "    _inherit = 'b'".toList]

theorem parseModelClass_name_and_inherit_witness :
    ∃ d, parseModelClass linesC10 0 ("Foo".toList) "/f.py" "m" [] ModelType.model = some d
      ∧ d ∈ parseModelsInFile linesC10 "/f.py" "m" []
      ∧ d.isInherit = false
      ∧ d.name = String.mk ("a".toList)
      ∧ d.inheritFrom = some (String.mk ("b".toList))
      ∧ mapGetD (pushModel ([] : CMap) d) (String.mk ("a".toList)) =
          mapGetD ([] : CMap) (String.mk ("a".toList)) ++ [d]
      ∧ d ∉ getInheritingModels ([] : CMap) (String.mk ("b".toList)) :=
  parseModelClass_name_and_inherit linesC10 0 ("class Foo(models.Model):".toList)
    ("Foo".toList) ("a".toList) ("b".toList) "/f.py" "m" [] []
    (by rfl) (by decide) (by decide) (by decide)
